import Mathlib

/-!
# Verification of the cgt combinatorial game theory library

Shallow embedding of the Rust sources of `cgt-rs` (Domineering positions on
bit-packed grids, dyadic rational numbers, extended rationals, Ski Jumps, and
the search enumerator of `cgt-cli`), together with proofs and refutations of
the specification claims.

Machine integers are modelled as `Nat`/`Int`; `u64` bitwise complement is
`xor` with `2^64 - 1`, and `u8` casts take the value modulo `256`.  Fallible
Rust functions returning `Result`/`Option` are modelled with `Option`; a Rust
`panic!`/`unimplemented!` is modelled as `none` where a claim depends on it.
All definitions are translated from the source files; the few definitions
that render missing repository modules or the spec's own vocabulary say so in
their doc comments.
-/

namespace Cgt

/-- Bitwise complement on a `u64` word: Rust `!x` equals `x ^ u64::MAX`. -/
def not64 (x : Nat) : Nat := x ^^^ (2 ^ 64 - 1)

/-- The update `(g & !(1 << n)) | (val << n)` performed by `set` on the raw
`u64` word, from `src/src/domineering.rs` (`Position::set`) and
`src/src/grid/small_bit_grid.rs` (`SmallBitGrid::set`). -/
def setBitRaw (g n : Nat) (v : Bool) : Nat :=
  (g &&& not64 (1 <<< n)) ||| ((if v then 1 else 0) <<< n)

/-- The read `(g >> n) & 1 == 1` performed by `at`/`get` on the raw word. -/
def getBitRaw (g n : Nat) : Bool := ((g >>> n) &&& 1) == 1

/-- A Domineering position on a rectangular grid
(`src/src/domineering.rs`, `struct Position`): `width`/`height` are `u8`,
`grid` is the packed `u64` of cells, bit `width*y + x` holding cell `(x, y)`. -/
structure Position where
  width : Nat
  height : Nat
  grid : Nat
deriving DecidableEq

namespace Position

/-- `Position::at` (source name `at`; `at` is reserved in Lean). -/
def at' (p : Position) (x y : Nat) : Bool :=
  getBitRaw p.grid (p.width * y + x)

/-- `Position::set`. -/
def set (p : Position) (x y : Nat) (v : Bool) : Position :=
  { p with grid := setBitRaw p.grid (p.width * y + x) v }

/-- `Position::check_dimensions`: at most 64 cells fit in the word. -/
def check_dimensions (width height : Nat) : Option Unit :=
  if width * height > 64 then none else some ()

/-- `Position::empty` (`Result` modelled as `Option`). -/
def empty (width height : Nat) : Option Position :=
  match check_dimensions width height with
  | none => none
  | some () => some { width := width, height := height, grid := 0 }

/-- `Position::filled`: the grid word is `u64::MAX`. -/
def filled (width height : Nat) : Option Position :=
  match check_dimensions width height with
  | none => none
  | some () => some { width := width, height := height, grid := 2 ^ 64 - 1 }

/-- `Position::from_number`: stores the raw id, no masking. -/
def from_number (width height grid_id : Nat) : Option Position :=
  match check_dimensions width height with
  | none => none
  | some () => some { width := width, height := height, grid := grid_id }

/-- One row of `Display for Position`: the inner `for x` loop. -/
def displayRowChars (p : Position) (y : Nat) : List Char :=
  (List.range p.width).map (fun x => if p.at' x y then '#' else '.')

/-- `Display for Position`: rows separated by `'|'` (no separator after the
last row). -/
def displayChars (p : Position) : List Char :=
  ((List.range p.height).map
    (fun y => displayRowChars p y ++ if y ≠ p.height - 1 then ['|'] else [])).flatten

/-- `Display for Position` as a `String`. -/
def displayStr (p : Position) : String := ⟨displayChars p⟩

/-- Rows `y` and beyond of the display text (decomposition helper:
`displayChars p = displayFrom p 0`). -/
def displayFrom (p : Position) (y : Nat) : List Char :=
  ((List.range' y (p.height - y)).map
    (fun z => displayRowChars p z ++
      if z ≠ p.height - 1 then ['|'] else [])).flatten

/-- The character loop of `Position::parse`: threads the cursor `(x, y)`
through the input.  On a `'|'` the current row length is checked against the
width; any other character must be `'.'` or `'#'` and is written at the
cursor.  Note there is no final check on the last row's length. -/
def parseGo (width : Nat) : List Char → Nat → Nat → Position → Option Position
  | [], _, _, g => some g
  | c :: cs, x, y, g =>
    if c = '|' then
      if x = width then parseGo width cs 0 (y + 1) g else none
    else if c = '.' then parseGo width cs (x + 1) y (g.set x y false)
    else if c = '#' then parseGo width cs (x + 1) y (g.set x y true)
    else none

/-- `Position::parse`: the width is the length of the text up to the first
`'|'` (a `u8`, hence modulo 256), the height is one more than the number of
`'|'` characters. -/
def parseChars (input : List Char) : Option Position :=
  match empty ((input.takeWhile (fun c => c ≠ '|')).length % 256)
      (((input.filter (fun c => c = '|')).length % 256 + 1) % 256) with
  | none => none
  | some g =>
    parseGo ((input.takeWhile (fun c => c ≠ '|')).length % 256) input 0 0 g

/-- `Position::parse` on a `String`. -/
def parse (input : String) : Option Position := parseChars input.data

/-- The first counting loop of `Position::move_top_left`: the number of
leading rows that are wholly filled (the `for`/`break` loop counts while the
row has no empty cell). -/
def filled_top_rows (p : Position) : Nat :=
  ((List.range p.height).takeWhile
    (fun y => (List.range p.width).all (fun x => p.at' x y))).length

/-- The second counting loop of `Position::move_top_left`: row `y` of the
loop inspects row `height - y - 1`. -/
def filled_bottom_rows (p : Position) : Nat :=
  ((List.range p.height).takeWhile
    (fun y => (List.range p.width).all
      (fun x => p.at' x (p.height - y - 1)))).length

/-- The third counting loop of `Position::move_top_left`. -/
def filled_left_cols (p : Position) : Nat :=
  ((List.range p.width).takeWhile
    (fun x => (List.range p.height).all (fun y => p.at' x y))).length

/-- The fourth counting loop of `Position::move_top_left`: column `x` of the
loop inspects column `width - x - 1`. -/
def filled_right_cols (p : Position) : Nat :=
  ((List.range p.width).takeWhile
    (fun x => (List.range p.height).all
      (fun y => p.at' (p.width - x - 1) y))).length

/-- `Position::move_top_left`: strip wholly-filled border rows and columns;
a grid whose rows (or columns) are all filled collapses to the `0×0` grid.
The copy loop is a fold over
`filled_top_rows..(height - filled_bottom_rows)` and
`filled_left_cols..(width - filled_right_cols)` writing into
`empty(minimized_width, minimized_height)`. -/
def move_top_left (p : Position) : Position :=
  if filled_top_rows p = p.height then ⟨0, 0, 0⟩
  else if filled_left_cols p = p.width then ⟨0, 0, 0⟩
  else
    (List.range' (filled_top_rows p)
        (p.height - filled_bottom_rows p - filled_top_rows p)).foldl
      (fun acc y =>
        (List.range' (filled_left_cols p)
            (p.width - filled_right_cols p - filled_left_cols p)).foldl
          (fun acc2 x =>
            acc2.set (x - filled_left_cols p) (y - filled_top_rows p)
              (p.at' x y))
          acc)
      ⟨p.width - filled_left_cols p - filled_right_cols p,
       p.height - filled_top_rows p - filled_bottom_rows p, 0⟩

/-- The `while let Some((qx, qy)) = q.pop_front()` loop of `Position::bfs`.
The state is the visited grid, the component grid being carved out of a
filled grid, and the FIFO queue.  `fuel` bounds the number of pops.  The
Rust loop always drains, and `bfs` below passes `4 ^ (w·h + 1)` fuel, which
no execution on a representable grid (`w·h ≤ 64`) can exhaust: a cell is
pushed only while unvisited and is marked visited the first time it is
popped, so the cells along any causal chain of pushes are pairwise distinct;
the tree of queue entries therefore has depth at most `w·h` and branching at
most 4 (one push per direction per pop), so the number of entries — and
hence of pops — is below `4 ^ (w·h)`.  (The worst representable case, the
empty `8×8` board, actually performs 12869 pops.) -/
def bfsGo (p : Position) :
    Nat → List (Nat × Nat) → Position → Position → Position × Position
  | _, [], visited, grid => (visited, grid)
  | 0, _ :: _, visited, grid => (visited, grid)
  | fuel + 1, (qx, qy) :: q, visited, grid =>
    let visited := visited.set qx qy true
    let grid := grid.set qx qy false
    let dirs : List (Int × Int) := [(1, 0), (-1, 0), (0, 1), (0, -1)]
    let pushes := dirs.filterMap (fun d =>
      let lx : Int := (qx : Int) + d.1
      let ly : Int := (qy : Int) + d.2
      if decide (0 ≤ lx) && decide (lx < (p.width : Int)) &&
         decide (0 ≤ ly) && decide (ly < (p.height : Int)) &&
         !p.at' lx.toNat ly.toNat && !visited.at' lx.toNat ly.toNat
      then some (lx.toNat, ly.toNat) else none)
    bfsGo p fuel (q ++ pushes) visited grid

/-- `Position::bfs`: flood-fill of one empty component starting at `(x, y)`;
returns the updated visited grid and the component carved out of a filled
grid, `move_top_left`-normalised. -/
def bfs (p : Position) (visited : Position) (x y : Nat) : Position × Position :=
  let grid : Position := ⟨p.width, p.height, 2 ^ 64 - 1⟩
  let res := bfsGo p (4 ^ (p.width * p.height + 1)) [(x, y)] visited grid
  (res.1, res.2.move_top_left)

/-- `Position::decompositions`: one BFS per yet-unvisited empty cell, in
row-major order. -/
def decompositions (p : Position) : List Position :=
  ((List.range p.height).foldl (fun st y =>
      (List.range p.width).foldl (fun st2 x =>
        if !p.at' x y && !st2.1.at' x y then
          let res := p.bfs st2.1 x y
          (res.1, st2.2 ++ [res.2])
        else st2) st)
    ((⟨p.width, p.height, 0⟩ : Position), ([] : List Position))).2

/-- `Position::to_latex` (via `to_latex_with_scale(1.)`; the `f32` scale is
only ever `1.0`, whose `to_string()` is `"1"`). -/
def to_latex (p : Position) : String :=
  "\\begin\x7btikzpicture\x7d[scale=1] " ++
  String.join ((List.range p.height).map (fun y =>
    String.join ((List.range p.width).map (fun x =>
      if p.at' x y then
        "\\fill[fill=gray] (" ++ toString x ++ "," ++ toString y ++
          ") rectangle (" ++ toString (x + 1) ++ "," ++ toString (y + 1) ++ "); "
      else "")))) ++
  "\\draw[step=1cm,black] (0,0) grid (" ++ toString p.width ++ ", " ++
    toString p.height ++ "); \\end\x7btikzpicture\x7d"

end Position

/-- `src/src/grid/small_bit_grid.rs`, `struct SmallBitGrid`: same packed
representation as the Domineering `Position`. -/
structure SmallBitGrid where
  width : Nat
  height : Nat
  grid : Nat
deriving DecidableEq

namespace SmallBitGrid

/-- `Grid for SmallBitGrid`, `get`. -/
def get (p : SmallBitGrid) (x y : Nat) : Bool :=
  getBitRaw p.grid (p.width * y + x)

/-- `Grid for SmallBitGrid`, `set`. -/
def set (p : SmallBitGrid) (x y : Nat) (v : Bool) : SmallBitGrid :=
  { p with grid := setBitRaw p.grid (p.width * y + x) v }

/-- `SmallBitGrid::check_dimensions`. -/
def check_dimensions (width height : Nat) : Option Unit :=
  if width * height > 64 then none else some ()

/-- `SmallBitGrid::empty`. -/
def empty (width height : Nat) : Option SmallBitGrid :=
  match check_dimensions width height with
  | none => none
  | some () => some { width := width, height := height, grid := 0 }

/-- The character loop of `SmallBitGrid::parse`.  Unlike `Position::parse`,
after the loop the final row's length is checked (`if x != width`). -/
def parseGo (width : Nat) : List Char → Nat → Nat → SmallBitGrid → Option SmallBitGrid
  | [], x, _, g => if x = width then some g else none
  | c :: cs, x, y, g =>
    if c = '|' then
      if x = width then parseGo width cs 0 (y + 1) g else none
    else if c = '.' then parseGo width cs (x + 1) y (g.set x y false)
    else if c = '#' then parseGo width cs (x + 1) y (g.set x y true)
    else none

/-- `SmallBitGrid::parse`. -/
def parseChars (input : List Char) : Option SmallBitGrid :=
  match empty ((input.takeWhile (fun c => c ≠ '|')).length % 256)
      (((input.filter (fun c => c = '|')).length % 256 + 1) % 256) with
  | none => none
  | some g =>
    parseGo ((input.takeWhile (fun c => c ≠ '|')).length % 256) input 0 0 g

/-- `SmallBitGrid::parse` on a `String`. -/
def parse (input : String) : Option SmallBitGrid := parseChars input.data

end SmallBitGrid

/-- The decomposition-skip test of the enumerator (`src/cgt-cli/src/main.rs`):
a position is skipped — no canonical form, temperature or output record —
when `decompositions.len() != 1 && !include_decompositions`. -/
def skipsPosition (include_decompositions : Bool) (grid : Position) : Bool :=
  decide (grid.decompositions.length ≠ 1) && !include_decompositions

/-- The output record written by the enumerator for one qualifying position
(`src/cgt-cli/src/main.rs`): the Rust
`format!("{}\n{} & {} \\\\ \n{}\n\n", grid, grid.to_latex(), temp, cf)`,
with the temperature and canonical-form strings as parameters (they are
produced by modules outside the embedded sources). -/
def emittedRecord (grid : Position) (temp cf : String) : String :=
  grid.displayStr ++ "\n" ++ grid.to_latex ++ " & " ++ temp ++ " \\\\ \n" ++
    cf ++ "\n\n"

/-- Modelled from the spec: the textual form of a JSON object begins, after
optional whitespace, with an opening brace.  This necessary condition stands
in for "the record is a JSON object" in §6 of the spec. -/
def looksLikeJsonObject (s : String) : Bool :=
  match s.data.dropWhile (fun c => c == ' ' || c == '\t' || c == '\n' || c == '\r') with
  | [] => false
  | c :: _ => c == Char.ofNat 123

/-- `src/src/dyadic_rational_number.rs`, `struct DyadicRationalNumber`:
an `i32` numerator/denominator pair (modelled as `Int`). -/
structure DyadicRationalNumber where
  numerator : Int
  denominator : Int
deriving DecidableEq

namespace DyadicRationalNumber

/-- `DyadicRationalNumber::normalized`: divide both components by the gcd of
their absolute values. -/
def normalized (r : DyadicRationalNumber) : DyadicRationalNumber :=
  let d : Nat := Nat.gcd r.numerator.natAbs r.denominator.natAbs
  ⟨r.numerator / (d : Int), r.denominator / (d : Int)⟩

/-- `DyadicRationalNumber::rational`: `None` on a zero denominator, the
canonical zero on a zero numerator, otherwise the sign-adjusted normalised
pair.  The source carries `// FIXME: Check if fraction is dyadic` here: the
denominator is never checked to be a power of two. -/
def rational (numerator denominator : Int) : Option DyadicRationalNumber :=
  if denominator = 0 then none
  else if numerator = 0 then some ⟨0, 1⟩
  else
    let sign := numerator.sign * denominator.sign
    some (normalized ⟨(numerator.natAbs : Int) * sign, (denominator.natAbs : Int)⟩)

/-- `From<i32> for DyadicRationalNumber`. -/
def fromInt (value : Int) : DyadicRationalNumber := ⟨value, 1⟩

/-- `Add for DyadicRationalNumber` (and `AddAssign`, which performs the same
computation in place). -/
def add (a b : DyadicRationalNumber) : DyadicRationalNumber :=
  normalized ⟨a.numerator * b.denominator + a.denominator * b.numerator,
    a.denominator * b.denominator⟩

end DyadicRationalNumber

/-- `src/src/numeric/rational.rs`, `enum Rational`: an extended rational with
infinities below and above all finite values; the finite payload
(`Rational64`, an exact `i64` fraction) is modelled as `ℚ`. -/
inductive Rational where
  | negativeInfinity
  | value (q : ℚ)
  | positiveInfinity
deriving DecidableEq

namespace Rational

/-- Variant rank used by the derived `PartialOrd`/`Ord`: Rust compares enum
variants in declaration order, then fields within a variant. -/
def variantIdx : Rational → Nat
  | negativeInfinity => 0
  | value _ => 1
  | positiveInfinity => 2

/-- The strict order of the derived `Ord` instance. -/
def lt (a b : Rational) : Prop :=
  match a, b with
  | value x, value y => x < y
  | a, b => variantIdx a < variantIdx b

instance (a b : Rational) : Decidable (lt a b) := by
  unfold lt; cases a <;> cases b <;> infer_instance

/-- The `+` operator (`impl_op_ex!`): finite plus finite, an infinity plus a
finite on either side; every remaining case (any sum of two infinities) hits
`unimplemented!()`, modelled as `none`. -/
def add : Rational → Rational → Option Rational
  | value x, value y => some (value (x + y))
  | value _, positiveInfinity => some positiveInfinity
  | positiveInfinity, value _ => some positiveInfinity
  | value _, negativeInfinity => some negativeInfinity
  | negativeInfinity, value _ => some negativeInfinity
  | _, _ => none

/-- The `-` operator (`impl_op_ex!`): only finite minus finite is
implemented; every case involving an infinity hits `unimplemented!()`,
modelled as `none`. -/
def sub : Rational → Rational → Option Rational
  | value x, value y => some (value (x - y))
  | _, _ => none

end Rational

/-- `src/src/short/partizan/games/ski_jumps.rs`, `enum Skier`. -/
inductive Skier where
  | jumper
  | slipper
deriving DecidableEq

/-- `src/src/short/partizan/games/ski_jumps.rs`, `enum Tile`. -/
inductive Tile where
  | empty
  | left (s : Skier)
  | right (s : Skier)
deriving DecidableEq

/-- Modelled from the spec: `VecGrid` (the dynamically-sized grid module
`src/grid/vec_grid.rs` is not among the provided sources).  A grid component
in the sense of §4.6, stored row-major with `get(x, y)` reading index
`y * width + x`, consistent with `SmallBitGrid`'s indexing. -/
structure VecGrid where
  width : Nat
  height : Nat
  tiles : List Tile
deriving DecidableEq

/-- Row-major read of a `VecGrid`. -/
def VecGrid.get (g : VecGrid) (x y : Nat) : Tile :=
  g.tiles.getD (y * g.width + x) Tile.empty

/-- `src/src/short/partizan/games/ski_jumps.rs`, `struct SkiJumps`. -/
structure SkiJumps where
  grid : VecGrid
deriving DecidableEq

/-- Modelled from the spec: canonical games (§4.2) — the canonical-form
table module is not among the provided sources.  Only the constructor
`construct_integer`/`CanonicalForm::new_integer` is needed here, so a game is
represented by its integer value. -/
structure CanonicalForm where
  intValue : Int
deriving DecidableEq

/-- `CanonicalForm::new_integer` (spec §4.2 `construct_integer`, total). -/
def CanonicalForm.new_integer (n : Int) : CanonicalForm := ⟨n⟩

namespace SkiJumps

/-- `SkiJumps::jump_available`: scans every cell and, for each, every column
of the row directly below, looking for a Left jumper above any Right skier or
a Right jumper above any Left skier.  Note the inner scan ranges over the
whole row below, not just the jumper's own column. -/
def jump_available (s : SkiJumps) : Bool :=
  (List.range s.grid.height).any fun y =>
    (List.range s.grid.width).any fun x =>
      (List.range s.grid.width).any fun dx =>
        decide (y + 1 < s.grid.height) &&
        (match s.grid.get x y, s.grid.get dx (y + 1) with
         | Tile.left Skier.jumper, Tile.right _ => true
         | Tile.right Skier.jumper, Tile.left _ => true
         | _, _ => false)

/-- The guard of the jump-generating branch of `SkiJumps::left_moves`
(lines 204–217): a Left jumping move exists exactly when some Left jumper
has a Right skier directly below it (same column). -/
def leftJumpExists (s : SkiJumps) : Bool :=
  (List.range s.grid.height).any fun y =>
    (List.range s.grid.width).any fun x =>
      (match s.grid.get x y with
       | Tile.left Skier.jumper => true
       | _ => false) &&
      decide (y + 1 < s.grid.height) &&
      (match s.grid.get x (y + 1) with
       | Tile.right _ => true
       | _ => false)

/-- The guard of the jump-generating branch of `SkiJumps::right_moves`
(lines 255–268): a Right jumping move exists exactly when some Right jumper
has a Left skier directly below it (same column). -/
def rightJumpExists (s : SkiJumps) : Bool :=
  (List.range s.grid.height).any fun y =>
    (List.range s.grid.width).any fun x =>
      (match s.grid.get x y with
       | Tile.right Skier.jumper => true
       | _ => false) &&
      decide (y + 1 < s.grid.height) &&
      (match s.grid.get x (y + 1) with
       | Tile.left _ => true
       | _ => false)

/-- The accumulation loop inside `SkiJumps::reductions`: Left skiers add
`width - x`, Right skiers subtract `x + 1` (in `i64`). -/
def reductionsValue (s : SkiJumps) : Int :=
  (List.range s.grid.height).foldl (fun acc y =>
    (List.range s.grid.width).foldl (fun acc2 x =>
      match s.grid.get x y with
      | Tile.empty => acc2
      | Tile.left _ => acc2 + ((s.grid.width : Int) - (x : Int))
      | Tile.right _ => acc2 - ((x : Int) + 1)) acc) 0

/-- `SkiJumps::reductions`: when `jump_available` is false, the integer game
given by the accumulated distance sum; otherwise `None`. -/
def reductions (s : SkiJumps) : Option CanonicalForm :=
  if !jump_available s then some (CanonicalForm.new_integer (reductionsValue s))
  else none

/-- Restatement of the claim's value in the spec's vocabulary: the sum over
Left skiers of their distance to the right board edge minus the sum over
Right skiers of their distance to the left board edge. -/
def specDistanceSum (s : SkiJumps) : Int :=
  (((List.range s.grid.height).map (fun y =>
    (((List.range s.grid.width).map (fun x =>
      match s.grid.get x y with
      | Tile.empty => 0
      | Tile.left _ => (s.grid.width : Int) - (x : Int)
      | Tile.right _ => -((x : Int) + 1)))).sum))).sum

end SkiJumps

end Cgt

namespace Cgt

theorem getBitRaw_eq_testBit (g n : Nat) : getBitRaw g n = g.testBit n := by
  simp only [getBitRaw, Nat.testBit_to_div_mod, Nat.shiftRight_eq_div_pow,
    Nat.and_one_is_mod]
  by_cases h : g / 2 ^ n % 2 = 1 <;> simp [h]

theorem testBit_setBitRaw (g n m : Nat) (v : Bool) (hn : n < 64) (hm : m < 64) :
    (setBitRaw g n v).testBit m = if m = n then v else g.testBit m := by
  have h1n : (1 : Nat) <<< n = 2 ^ n := by
    simp [Nat.shiftLeft_eq]
  have hvb : ((if v then 1 else 0) : Nat) <<< n = (if v then 2 ^ n else 0) := by
    cases v <;> simp [Nat.shiftLeft_eq]
  simp only [setBitRaw, not64, h1n, hvb, Nat.testBit_or, Nat.testBit_and,
    Nat.testBit_xor, Nat.testBit_two_pow, Nat.testBit_two_pow_sub_one]
  by_cases hmn : m = n
  · subst hmn
    cases v <;> simp [hm, Nat.testBit_lt_two_pow, Nat.pow_lt_pow_right]
  · have hnm : ¬ n = m := fun h => hmn h.symm
    cases v <;> simp [hnm, hmn, hm]

theorem setBitRaw_lt {g K : Nat} (n : Nat) (v : Bool) (hg : g < 2 ^ K)
    (hn : n < K) : setBitRaw g n v < 2 ^ K := by
  apply Nat.or_lt_two_pow
  · exact Nat.lt_of_le_of_lt Nat.and_le_left hg
  · have h2 : (2 : Nat) ^ n < 2 ^ K := Nat.pow_lt_pow_right (by omega) hn
    cases v
    · simp [Nat.shiftLeft_eq]
    · simpa [Nat.shiftLeft_eq] using h2

/-- Row-major indices of in-bounds cells are injective. -/
theorem index_inj {w a b x y : Nat} (ha : a < w) (hx : x < w)
    (h : w * b + a = w * y + x) : a = x ∧ b = y := by
  have hmod : (w * b + a) % w = (w * y + x) % w := by rw [h]
  have hax : a = x := by
    rwa [Nat.mul_add_mod, Nat.mul_add_mod, Nat.mod_eq_of_lt ha,
      Nat.mod_eq_of_lt hx] at hmod
  subst hax
  refine ⟨rfl, ?_⟩
  have hw : 0 < w := Nat.pos_of_ne_zero (by omega)
  have : w * b = w * y := by omega
  exact Nat.eq_of_mul_eq_mul_left hw this

/-- In-bounds cell index is below the cell count. -/
theorem index_lt {w h x y : Nat} (hx : x < w) (hy : y < h) :
    w * y + x < w * h := by
  calc w * y + x < w * y + w := by omega
    _ = w * (y + 1) := by ring
    _ ≤ w * h := Nat.mul_le_mul_left w hy

namespace Position

@[simp] theorem set_width (p : Position) (x y : Nat) (v : Bool) :
    (p.set x y v).width = p.width := rfl

@[simp] theorem set_height (p : Position) (x y : Nat) (v : Bool) :
    (p.set x y v).height = p.height := rfl

theorem at_set (p : Position) (x y a b : Nat) (v : Bool)
    (h1 : p.width * y + x < 64) (h2 : p.width * b + a < 64) :
    (p.set x y v).at' a b =
      if p.width * b + a = p.width * y + x then v else p.at' a b := by
  simp only [at', set, getBitRaw_eq_testBit]
  exact testBit_setBitRaw p.grid _ _ v h1 h2

end Position

namespace SmallBitGrid

theorem get_set (p : SmallBitGrid) (x y a b : Nat) (v : Bool)
    (h1 : p.width * y + x < 64) (h2 : p.width * b + a < 64) :
    (p.set x y v).get a b =
      if p.width * b + a = p.width * y + x then v else p.get a b := by
  simp only [get, set, getBitRaw_eq_testBit]
  exact testBit_setBitRaw p.grid _ _ v h1 h2

end SmallBitGrid

/-- C9: `Position::from_number(w, h, id)` succeeds whenever `w·h ≤ 64` and
stores the raw 64-bit id without masking bits at positions `≥ w·h`; equality
of positions is structural on the raw word, so the `1×1` positions with ids
`0` and `2` (which differ only in bit `1 ≥ 1·1`) agree on every in-bounds
cell and display identically, yet compare unequal. -/
theorem from_number_no_masking :
    (∀ w h id, w ≤ 255 → h ≤ 255 → w * h ≤ 64 →
      Position.from_number w h id = some ⟨w, h, id⟩) ∧
    (∀ x y, x < 1 → y < 1 →
      Position.at' ⟨1, 1, 0⟩ x y = Position.at' ⟨1, 1, 2⟩ x y) ∧
    (∀ n, n < 1 * 1 → Nat.testBit 0 n = Nat.testBit 2 n) ∧
    Position.displayStr ⟨1, 1, 0⟩ = Position.displayStr ⟨1, 1, 2⟩ ∧
    (⟨1, 1, 0⟩ : Position) ≠ ⟨1, 1, 2⟩ := by
  refine ⟨?_, ?_, ?_, by decide, by decide⟩
  · intro w h id _ _ hwh
    simp [Position.from_number, Position.check_dimensions, Nat.not_lt.mpr hwh]
  · intro x y hx hy
    have hx0 : x = 0 := by omega
    have hy0 : y = 0 := by omega
    subst hx0; subst hy0; decide
  · intro n hn
    have hn0 : n = 0 := by omega
    subst hn0; decide

/-- C9 witness: the universally quantified parts of `from_number_no_masking`
evaluated at concrete inputs. -/
theorem from_number_no_masking_witness :
    Position.from_number 1 1 2 = some ⟨1, 1, 2⟩ ∧
    Position.at' ⟨1, 1, 0⟩ 0 0 = Position.at' ⟨1, 1, 2⟩ 0 0 :=
  ⟨from_number_no_masking.1 1 1 2 (by decide) (by decide) (by decide),
   from_number_no_masking.2.1 0 0 (by decide) (by decide)⟩

/-- C10: on a grid with at most 64 cells, the bit index of an in-bounds cell
is at most 63 (shifts never reach the word size), and `set(x, y, v)` changes
only that cell: afterwards `at`/`get` at `(x, y)` returns `v`, every other
in-bounds cell keeps its previous value, and the dimensions are unchanged.
This holds both for the Domineering `Position` and for `SmallBitGrid`. -/
theorem set_frame (p : Position) (q : SmallBitGrid) (x y : Nat) (v : Bool)
    (hwh : p.width * p.height ≤ 64) (hx : x < p.width) (hy : y < p.height)
    (hwh' : q.width * q.height ≤ 64) (hx' : x < q.width) (hy' : y < q.height) :
    (p.width * y + x ≤ 63 ∧
     (p.set x y v).at' x y = v ∧
     (∀ a b, a < p.width → b < p.height → ¬(a = x ∧ b = y) →
        (p.set x y v).at' a b = p.at' a b) ∧
     (p.set x y v).width = p.width ∧ (p.set x y v).height = p.height) ∧
    (q.width * y + x ≤ 63 ∧
     (q.set x y v).get x y = v ∧
     (∀ a b, a < q.width → b < q.height → ¬(a = x ∧ b = y) →
        (q.set x y v).get a b = q.get a b) ∧
     (q.set x y v).width = q.width ∧ (q.set x y v).height = q.height) := by
  have hidx : p.width * y + x < 64 :=
    Nat.lt_of_lt_of_le (index_lt hx hy) hwh
  have hidx' : q.width * y + x < 64 :=
    Nat.lt_of_lt_of_le (index_lt hx' hy') hwh'
  refine ⟨⟨by omega, ?_, ?_, rfl, rfl⟩, ⟨by omega, ?_, ?_, rfl, rfl⟩⟩
  · rw [Position.at_set p x y x y v hidx hidx]; simp
  · intro a b ha hb hne
    have hab : p.width * b + a < 64 :=
      Nat.lt_of_lt_of_le (index_lt ha hb) hwh
    rw [Position.at_set p x y a b v hidx hab, if_neg]
    intro hEq
    exact hne (index_inj ha hx hEq)
  · rw [SmallBitGrid.get_set q x y x y v hidx' hidx']; simp
  · intro a b ha hb hne
    have hab : q.width * b + a < 64 :=
      Nat.lt_of_lt_of_le (index_lt ha hb) hwh'
    rw [SmallBitGrid.get_set q x y a b v hidx' hab, if_neg]
    intro hEq
    exact hne (index_inj ha hx' hEq)

/-- C2 (bug evidence): the non-rectangular input `"..|."` — whose last row is
shorter than the first — is accepted by `Position::parse`, which lacks the
final row-length check and returns the `2×2` grid `"..|.."`, while
`SmallBitGrid::parse` (which checks `x != width` after the loop) rejects it. -/
theorem parse_accepts_non_rectangular :
    Position.parse "..|." = some ⟨2, 2, 0⟩ ∧
    SmallBitGrid.parse "..|." = none := by
  constructor <;> rfl

/-- C3 (bug evidence): `rational(1, 3)` returns the stored pair `(1, 3)`
whose denominator is not a power of two, so the produced value `1/3` does not
represent any `n·2^(−k)`; the source itself carries
`// FIXME: Check if fraction is dyadic` at this spot. -/
theorem rational_accepts_non_dyadic :
    DyadicRationalNumber.rational 1 3 = some ⟨1, 3⟩ ∧
    ∀ k : Nat, (⟨1, 3⟩ : DyadicRationalNumber).denominator ≠ 2 ^ k := by
  refine ⟨by decide, ?_⟩
  intro k h
  simp only at h
  match k with
  | 0 => simp at h
  | 1 => norm_num at h
  | (m + 2) =>
    have h4 : ((2 : Int) ^ (m + 2)) = 4 * 2 ^ m := by ring
    have h1 : (1 : Int) ≤ 2 ^ m := one_le_pow₀ (by norm_num)
    rw [h4] at h
    omega

/-- C4 counterexample: the claim's subtraction law fails on the code —
`−∞ − 0` hits `unimplemented!()` (a panic) instead of returning `−∞`. -/
theorem sub_neg_infinity_unimplemented :
    Rational.sub Rational.negativeInfinity (Rational.value 0) ≠
      some Rational.negativeInfinity := by
  simp [Rational.sub]

/-- C4 (amended): on extended rationals the infinities compare as their
signs and `±∞ + finite = ±∞` on either side, but every sum of two infinities
(mixed- or same-sign) and every subtraction involving an infinity panics via
`unimplemented!()` (there is no `ArithmeticUndefined` error value); in
particular `−∞ − finite` panics rather than returning `−∞`. -/
theorem extended_rational_arith :
    (∀ q : ℚ, Rational.lt Rational.negativeInfinity (Rational.value q)) ∧
    (∀ q : ℚ, Rational.lt (Rational.value q) Rational.positiveInfinity) ∧
    Rational.lt Rational.negativeInfinity Rational.positiveInfinity ∧
    (∀ x y : ℚ, Rational.add (Rational.value x) (Rational.value y) =
      some (Rational.value (x + y))) ∧
    (∀ q : ℚ, Rational.add Rational.positiveInfinity (Rational.value q) =
      some Rational.positiveInfinity) ∧
    (∀ q : ℚ, Rational.add (Rational.value q) Rational.positiveInfinity =
      some Rational.positiveInfinity) ∧
    (∀ q : ℚ, Rational.add Rational.negativeInfinity (Rational.value q) =
      some Rational.negativeInfinity) ∧
    (∀ q : ℚ, Rational.add (Rational.value q) Rational.negativeInfinity =
      some Rational.negativeInfinity) ∧
    Rational.add Rational.positiveInfinity Rational.negativeInfinity = none ∧
    Rational.add Rational.negativeInfinity Rational.positiveInfinity = none ∧
    Rational.add Rational.positiveInfinity Rational.positiveInfinity = none ∧
    Rational.add Rational.negativeInfinity Rational.negativeInfinity = none ∧
    (∀ q : ℚ, Rational.sub Rational.negativeInfinity (Rational.value q) = none) ∧
    (∀ q : ℚ, Rational.sub Rational.positiveInfinity (Rational.value q) = none) ∧
    (∀ q : ℚ, Rational.sub (Rational.value q) Rational.negativeInfinity = none) ∧
    (∀ x y : ℚ, Rational.sub (Rational.value x) (Rational.value y) =
      some (Rational.value (x - y))) := by
  refine ⟨fun q => ?_, fun q => ?_, ?_, fun x y => rfl, fun q => rfl,
    fun q => rfl, fun q => rfl, fun q => rfl, rfl, rfl, rfl, rfl,
    fun q => rfl, fun q => rfl, fun q => rfl, fun x y => rfl⟩ <;>
    simp [Rational.lt, Rational.variantIdx]

/-- C5 counterexample: in the `2×2` position `L.|.R` no jumping move exists
for either player (the jump-generating branches of `left_moves` and
`right_moves` fire only when the opposing skier is directly below, in the
same column), yet `reductions` returns `None`: `jump_available`
over-approximates, pairing the Left jumper with the Right skier in a
different column of the row below. -/
theorem reductions_none_without_jump_move :
    SkiJumps.leftJumpExists ⟨⟨2, 2, [Tile.left Skier.jumper, Tile.empty,
      Tile.empty, Tile.right Skier.jumper]⟩⟩ = false ∧
    SkiJumps.rightJumpExists ⟨⟨2, 2, [Tile.left Skier.jumper, Tile.empty,
      Tile.empty, Tile.right Skier.jumper]⟩⟩ = false ∧
    SkiJumps.jump_available ⟨⟨2, 2, [Tile.left Skier.jumper, Tile.empty,
      Tile.empty, Tile.right Skier.jumper]⟩⟩ = true ∧
    SkiJumps.reductions ⟨⟨2, 2, [Tile.left Skier.jumper, Tile.empty,
      Tile.empty, Tile.right Skier.jumper]⟩⟩ = none := by
  decide

/-- Folding `acc + f x` over a list sums the mapped values. -/
theorem foldl_add_eq_sum (f : Nat → Int) :
    ∀ (l : List Nat) (a : Int),
      l.foldl (fun acc x => acc + f x) a = a + (l.map f).sum := by
  intro l
  induction l with
  | nil => intro a; simp
  | cons x xs ih =>
    intro a
    simp [List.foldl_cons, ih, add_assoc]

/-- The accumulated `reductions` value is the claim's distance sum. -/
theorem reductionsValue_eq_specDistanceSum (s : SkiJumps) :
    SkiJumps.reductionsValue s = SkiJumps.specDistanceSum s := by
  unfold SkiJumps.reductionsValue SkiJumps.specDistanceSum
  have hrow : ∀ y : Nat,
      (fun (acc2 : Int) (x : Nat) =>
        match s.grid.get x y with
        | Tile.empty => acc2
        | Tile.left _ => acc2 + ((s.grid.width : Int) - (x : Int))
        | Tile.right _ => acc2 - ((x : Int) + 1)) =
      (fun (acc2 : Int) (x : Nat) => acc2 +
        (match s.grid.get x y with
         | Tile.empty => 0
         | Tile.left _ => (s.grid.width : Int) - (x : Int)
         | Tile.right _ => -((x : Int) + 1))) := by
    intro y
    funext acc2 x
    rcases s.grid.get x y with _ | sk | sk <;> simp [sub_eq_add_neg]
  have houter : (fun (acc : Int) (y : Nat) =>
      (List.range s.grid.width).foldl
        (fun acc2 x =>
          match s.grid.get x y with
          | Tile.empty => acc2
          | Tile.left _ => acc2 + ((s.grid.width : Int) - (x : Int))
          | Tile.right _ => acc2 - ((x : Int) + 1)) acc) =
      (fun (acc : Int) (y : Nat) => acc +
        ((List.range s.grid.width).map (fun x =>
          (match s.grid.get x y with
           | Tile.empty => 0
           | Tile.left _ => (s.grid.width : Int) - (x : Int)
           | Tile.right _ => -((x : Int) + 1)))).sum) := by
    funext acc y
    rw [hrow y, foldl_add_eq_sum]
  rw [houter, foldl_add_eq_sum]
  simp

/-- C5 (amended): `reductions` returns a value exactly when `jump_available`
is false — a test that can stay true when no jumping move actually exists,
since it scans every column of the row below — and the returned value is the
integer `Σ_Left (width − x) − Σ_Right (x + 1)` over the skiers. -/
theorem reductions_eq_distance_sum (s : SkiJumps) :
    SkiJumps.reductions s =
      if SkiJumps.jump_available s then none
      else some (CanonicalForm.new_integer (SkiJumps.specDistanceSum s)) := by
  unfold SkiJumps.reductions
  rw [reductionsValue_eq_specDistanceSum]
  by_cases h : SkiJumps.jump_available s <;> simp [h]

/-- C6 counterexample: with `include_decompositions` false, the filled `1×1`
position — whose normalised grid is `0×0` and has zero empty-cell components,
not two or more — is nevertheless skipped, because the test compares the
component count against one. -/
theorem skips_zero_component_position :
    Position.from_number 1 1 1 = some ⟨1, 1, 1⟩ ∧
    skipsPosition false (Position.move_top_left ⟨1, 1, 1⟩) = true ∧
    (Position.move_top_left ⟨1, 1, 1⟩).decompositions.length = 0 := by
  refine ⟨by decide, by decide, by decide⟩

/-- C6 (amended): with `include_decompositions` false a position is skipped
exactly when its decomposition list does not have exactly one element, i.e.
when it has zero components (no empty cells) or two or more; one-component
positions, such as the empty `2×1` grid, are processed. -/
theorem skipsPosition_iff :
    (∀ g : Position, skipsPosition false g = true ↔
      (g.decompositions.length = 0 ∨ 2 ≤ g.decompositions.length)) ∧
    skipsPosition false ⟨2, 1, 0⟩ = false := by
  constructor
  · intro g
    simp only [skipsPosition, Bool.not_false, Bool.and_true,
      decide_eq_true_eq]
    omega
  · decide

/-- C7 counterexample: the record emitted for the qualifying `2×2` position
`.#|.#` (temperature `1`, canonical form `{1|-1}`) is not a JSON object — it
is the plain-text/LaTeX block written by the enumerator's `format!`, starting
with the grid's `.#` text rather than a brace. -/
theorem emitted_record_not_json :
    looksLikeJsonObject (emittedRecord ⟨2, 2, 10⟩ "1" "\x7b1|-1\x7d") = false ∧
    emittedRecord ⟨2, 2, 10⟩ "1" "\x7b1|-1\x7d" =
      ".#|.#\n\\begin\x7btikzpicture\x7d[scale=1] \\fill[fill=gray] (1,0) rectangle (2,1); \\fill[fill=gray] (1,1) rectangle (2,2); \\draw[step=1cm,black] (0,0) grid (2, 2); \\end\x7btikzpicture\x7d & 1 \\\\ \n\x7b1|-1\x7d\n\n" := by
  constructor <;> rfl

/-- For a grid with at least one row and one column, the display text starts
with the character of cell `(0, 0)`. -/
theorem displayChars_cons (p : Position) (hw : 1 ≤ p.width) (hh : 1 ≤ p.height) :
    ∃ rest, Position.displayChars p = (if p.at' 0 0 then '#' else '.') :: rest := by
  unfold Position.displayChars Position.displayRowChars
  have hH : List.range p.height = 0 :: ((List.range (p.height - 1)).map (· + 1)) := by
    conv_lhs => rw [show p.height = (p.height - 1) + 1 by omega]
    exact List.range_succ_eq_map _
  have hW : List.range p.width = 0 :: ((List.range (p.width - 1)).map (· + 1)) := by
    conv_lhs => rw [show p.width = (p.width - 1) + 1 by omega]
    exact List.range_succ_eq_map _
  rw [hH, List.map_cons, List.flatten_cons, hW, List.map_cons]
  exact ⟨_, rfl⟩

/-- C7 (amended): each record the enumerator emits is the plain-text/LaTeX
block `"<grid>\n<latex> & <temperature> \\ \n<canonical form>\n\n"`, not a
JSON object: for every non-degenerate grid the record starts with the `.`/`#`
character of cell `(0, 0)` — in particular not with a brace — and every
record ends with a trailing blank line (`\n\n`), which separates records. -/
theorem emittedRecord_shape (p : Position) (temp cf : String)
    (hw : 1 ≤ p.width) (hh : 1 ≤ p.height) :
    looksLikeJsonObject (emittedRecord p temp cf) = false ∧
    (emittedRecord p temp cf).data.head? =
      some (if p.at' 0 0 then '#' else '.') ∧
    (emittedRecord p temp cf).data.reverse.take 2 = ['\n', '\n'] := by
  obtain ⟨rest, hdisp⟩ := displayChars_cons p hw hh
  have hdata : (emittedRecord p temp cf).data =
      (if p.at' 0 0 then '#' else '.') ::
        (rest ++ '\n' :: (p.to_latex.data ++ " & ".data ++ temp.data ++
          " \\\\ \n".data ++ cf.data ++ ['\n', '\n'])) := by
    simp [emittedRecord, Position.displayStr, hdisp]
  refine ⟨?_, ?_, ?_⟩
  · unfold looksLikeJsonObject
    rw [hdata, List.dropWhile_cons]
    cases hc : p.at' 0 0 <;> simp [hc]
  · rw [hdata]; rfl
  · rw [hdata]
    have : ((if p.at' 0 0 then '#' else '.') ::
        (rest ++ '\n' :: (p.to_latex.data ++ " & ".data ++ temp.data ++
          " \\\\ \n".data ++ cf.data ++ ['\n', '\n']))) =
        (((if p.at' 0 0 then '#' else '.') ::
          (rest ++ '\n' :: (p.to_latex.data ++ " & ".data ++ temp.data ++
            " \\\\ \n".data ++ cf.data))) ++ ['\n', '\n']) := by
      simp
    rw [this, List.reverse_append]
    rfl

/-- C7 witness: `emittedRecord_shape` evaluated for the empty `1×2` grid with
temperature text `"1"` and canonical-form text `"1"`. -/
theorem emittedRecord_shape_witness :
    looksLikeJsonObject (emittedRecord ⟨1, 2, 0⟩ "1" "1") = false ∧
    (emittedRecord ⟨1, 2, 0⟩ "1" "1").data.head? = some '.' ∧
    (emittedRecord ⟨1, 2, 0⟩ "1" "1").data.reverse.take 2 = ['\n', '\n'] := by
  have h := emittedRecord_shape ⟨1, 2, 0⟩ "1" "1" (by decide) (by decide)
  refine ⟨h.1, ?_, h.2.2⟩
  have h0 : Position.at' ⟨1, 2, 0⟩ 0 0 = false := by decide
  have := h.2.1
  rwa [h0] at this

theorem mem_range'_iff {s n m : Nat} : m ∈ List.range' s n ↔ s ≤ m ∧ m < s + n := by
  rw [List.mem_range']
  constructor
  · rintro ⟨i, hi, rfl⟩; omega
  · intro h; exact ⟨m - s, by omega, by omega⟩

theorem takeWhile_length_le {α} (f : α → Bool) :
    ∀ l : List α, (l.takeWhile f).length ≤ l.length := by
  intro l
  induction l with
  | nil => simp
  | cons a t ih =>
    by_cases hfa : f a
    · rw [List.takeWhile_cons_of_pos hfa]
      simpa using ih
    · rw [List.takeWhile_cons_of_neg hfa]
      simp

theorem takeWhile_getD_true {α} (d : α) (f : α → Bool) :
    ∀ (l : List α) (i : Nat), i < (l.takeWhile f).length →
      f (l.getD i d) = true := by
  intro l
  induction l with
  | nil => intro i h; simp [List.takeWhile] at h
  | cons a t ih =>
    intro i h
    by_cases hfa : f a
    · rw [List.takeWhile_cons_of_pos hfa] at h
      cases i with
      | zero => simpa using hfa
      | succ j =>
        rw [List.getD_cons_succ]
        exact ih j (by simpa using h)
    · rw [List.takeWhile_cons_of_neg hfa] at h
      simp at h

theorem takeWhile_getD_false {α} (d : α) (f : α → Bool) :
    ∀ l : List α, (l.takeWhile f).length < l.length →
      f (l.getD (l.takeWhile f).length d) = false := by
  intro l
  induction l with
  | nil => intro h; simp at h
  | cons a t ih =>
    intro h
    by_cases hfa : f a
    · rw [List.takeWhile_cons_of_pos hfa] at h ⊢
      simp only [List.length_cons] at h
      simpa [List.getD_cons_succ] using ih (by omega)
    · rw [List.takeWhile_cons_of_neg hfa]
      simpa [List.getD_cons_zero] using hfa

theorem range_getD (n i : Nat) (h : i < n) : (List.range n).getD i 0 = i := by
  rw [List.getD_eq_getElem?_getD, List.getElem?_eq_getElem (by simpa using h)]
  simp

theorem takeWhile_range_true (f : Nat → Bool) (n i : Nat)
    (h : i < ((List.range n).takeWhile f).length) : f i = true := by
  have hle : ((List.range n).takeWhile f).length ≤ n := by
    simpa using takeWhile_length_le f (List.range n)
  have := takeWhile_getD_true 0 f (List.range n) i h
  rwa [range_getD n i (by omega)] at this

theorem takeWhile_range_false (f : Nat → Bool) (n : Nat)
    (h : ((List.range n).takeWhile f).length < n) :
    f ((List.range n).takeWhile f).length = false := by
  have := takeWhile_getD_false 0 f (List.range n) (by simpa using h)
  rwa [range_getD _ _ h] at this

theorem takeWhile_range_all (f : Nat → Bool) (n : Nat)
    (h : ∀ i, i < n → f i = true) :
    ((List.range n).takeWhile f).length = n := by
  have : (List.range n).takeWhile f = List.range n :=
    List.takeWhile_eq_self_iff.mpr (by
      intro x hx
      exact h x (List.mem_range.mp hx))
  rw [this, List.length_range]

/-- Folding an arbitrary step function preserves any invariant preserved by
each step (stated with list membership so the step may use it). -/
theorem foldl_preserve_mem {α} (F : Position → α → Position)
    (P : Position → Prop) :
    ∀ (l : List α), (∀ p a, a ∈ l → P p → P (F p a)) →
      ∀ p, P p → P (l.foldl F p) := by
  intro l
  induction l with
  | nil => intro _ p hp; exact hp
  | cons a t ih =>
    intro hF p hp
    rw [List.foldl_cons]
    exact ih (fun p' a' ha' hp' => hF p' a' (List.mem_cons_of_mem _ ha') hp')
      (F p a) (hF p a (List.mem_cons_self _ _) hp)

/-- One row of the grid-rebuilding fold: writing the cells of row `y` (with
column indices shifted by `l` and row indices by `t`) affects exactly the
written cells. -/
theorem row_foldl_at (v : Nat → Bool) (l t mw mh y : Nat)
    (hyt : t ≤ y) (hy2 : y < t + mh) (h64 : mw * mh ≤ 64) :
    ∀ (xs : List Nat) (p : Position), p.width = mw → p.height = mh →
      (∀ x ∈ xs, l ≤ x ∧ x < l + mw) →
      ∀ a b, a < mw → b < mh →
      ((xs.foldl (fun acc x => acc.set (x - l) (y - t) (v x)) p).at' a b =
        if b = y - t ∧ (a + l) ∈ xs then v (a + l) else p.at' a b) := by
  intro xs
  induction xs with
  | nil =>
    intro p hw hh _ a b ha hb
    simp
  | cons x0 rest ih =>
    intro p hw hh hxs a b ha hb
    have hx0 := hxs x0 (List.mem_cons_self _ _)
    have hrest : ∀ x ∈ rest, l ≤ x ∧ x < l + mw :=
      fun x hx => hxs x (List.mem_cons_of_mem _ hx)
    rw [List.foldl_cons,
      ih (p.set (x0 - l) (y - t) (v x0)) (by simp [hw]) (by simp [hh])
        hrest a b ha hb]
    by_cases hcase : b = y - t ∧ (a + l) ∈ rest
    · rw [if_pos hcase, if_pos ⟨hcase.1, List.mem_cons_of_mem _ hcase.2⟩]
    · rw [if_neg hcase]
      have hxl : x0 - l < mw := by omega
      have hyt' : y - t < mh := by omega
      have hidx1 : p.width * (y - t) + (x0 - l) < 64 := by
        rw [hw]; exact Nat.lt_of_lt_of_le (index_lt hxl hyt') h64
      have hidx2 : p.width * b + a < 64 := by
        rw [hw]; exact Nat.lt_of_lt_of_le (index_lt ha hb) h64
      rw [Position.at_set p _ _ a b _ hidx1 hidx2]
      by_cases heq : p.width * b + a = p.width * (y - t) + (x0 - l)
      · have hinj := index_inj (w := p.width)
          (by rw [hw]; exact ha) (by rw [hw]; exact hxl) heq
        have hax : a + l = x0 := by omega
        rw [if_pos heq,
          if_pos ⟨hinj.2, by rw [hax]; exact List.mem_cons_self _ _⟩, hax]
      · rw [if_neg heq, if_neg]
        rintro ⟨hb', hmem⟩
        rcases List.mem_cons.mp hmem with hx | hx
        · apply heq
          have hal : a = x0 - l := by omega
          rw [hb', hal]
        · exact hcase ⟨hb', hx⟩

/-- The full grid-rebuilding fold: rows from `ys`, each row writing columns
`l..l+mw`, reading values from `v`. -/
theorem rows_foldl_at (v : Nat → Nat → Bool) (l t mw mh : Nat)
    (h64 : mw * mh ≤ 64) :
    ∀ (ys : List Nat) (p : Position), p.width = mw → p.height = mh →
      (∀ y ∈ ys, t ≤ y ∧ y < t + mh) →
      ∀ a b, a < mw → b < mh →
      ((ys.foldl (fun acc y => (List.range' l mw).foldl
          (fun acc2 x => acc2.set (x - l) (y - t) (v x y)) acc) p).at' a b =
        if (b + t) ∈ ys then v (a + l) (b + t) else p.at' a b) := by
  intro ys
  induction ys with
  | nil =>
    intro p hw hh _ a b ha hb
    simp
  | cons y0 rest ih =>
    intro p hw hh hys a b ha hb
    have hy0 := hys y0 (List.mem_cons_self _ _)
    have hrest : ∀ y ∈ rest, t ≤ y ∧ y < t + mh :=
      fun y hy => hys y (List.mem_cons_of_mem _ hy)
    have hdims : ∀ q : Position, q.width = mw → q.height = mh →
        ((List.range' l mw).foldl
          (fun acc2 x => acc2.set (x - l) (y0 - t) (v x y0)) q).width = mw ∧
        ((List.range' l mw).foldl
          (fun acc2 x => acc2.set (x - l) (y0 - t) (v x y0)) q).height = mh := by
      intro q hqw hqh
      refine foldl_preserve_mem _ (fun r => r.width = mw ∧ r.height = mh) _
        ?_ q ⟨hqw, hqh⟩
      intro r x _ hr
      exact ⟨by simp [hr.1], by simp [hr.2]⟩
    rw [List.foldl_cons,
      ih _ (hdims p hw hh).1 (hdims p hw hh).2 hrest a b ha hb]
    by_cases hmem : (b + t) ∈ rest
    · rw [if_pos hmem, if_pos (List.mem_cons_of_mem _ hmem)]
    · rw [if_neg hmem,
        row_foldl_at (fun x => v x y0) l t mw mh y0 hy0.1 hy0.2 h64
          (List.range' l mw) p hw hh
          (fun x hx => by simpa using (mem_range'_iff.mp hx)) a b ha hb]
      have hal : (a + l) ∈ List.range' l mw := mem_range'_iff.mpr (by omega)
      by_cases hb0 : b = y0 - t
      · have hbt : b + t = y0 := by omega
        rw [if_pos ⟨hb0, hal⟩, if_pos (by rw [hbt]; exact List.mem_cons_self _ _),
          hbt]
      · have hbt : ¬ (b + t) ∈ (y0 :: rest) := by
          intro hcon
          rcases List.mem_cons.mp hcon with hx | hx
          · exact hb0 (by omega)
          · exact hmem hx
        rw [if_neg (fun hcon => hb0 hcon.1), if_neg hbt]

theorem position_ext {p q : Position} (h1 : p.width = q.width)
    (h2 : p.height = q.height) (h3 : p.grid = q.grid) : p = q := by
  cases p; cases q; simp_all

namespace Position

theorem filled_top_rows_le (p : Position) : filled_top_rows p ≤ p.height := by
  simpa using takeWhile_length_le _ (List.range p.height)

theorem filled_bottom_rows_le (p : Position) :
    filled_bottom_rows p ≤ p.height := by
  simpa using takeWhile_length_le _ (List.range p.height)

theorem filled_left_cols_le (p : Position) : filled_left_cols p ≤ p.width := by
  simpa using takeWhile_length_le _ (List.range p.width)

theorem filled_right_cols_le (p : Position) :
    filled_right_cols p ≤ p.width := by
  simpa using takeWhile_length_le _ (List.range p.width)

theorem top_rows_filled (p : Position) {y : Nat} (hy : y < filled_top_rows p) :
    ∀ x, x < p.width → p.at' x y = true := by
  intro x hx
  have h := takeWhile_range_true _ p.height y hy
  rw [List.all_eq_true] at h
  exact h x (List.mem_range.mpr hx)

theorem top_row_not_filled (p : Position) (h : filled_top_rows p < p.height) :
    ∃ x, x < p.width ∧ p.at' x (filled_top_rows p) = false := by
  have h1 : ((List.range p.width).all
      (fun x => p.at' x (filled_top_rows p))) = false :=
    takeWhile_range_false _ p.height h
  have h2 : ¬ ((List.range p.width).all
      (fun x => p.at' x (filled_top_rows p)) = true) := by simp [h1]
  rw [List.all_eq_true] at h2
  push_neg at h2
  obtain ⟨x, hx, hfx⟩ := h2
  exact ⟨x, List.mem_range.mp hx, by simpa using hfx⟩

theorem bottom_rows_filled (p : Position) {j : Nat}
    (hj : j < filled_bottom_rows p) :
    ∀ x, x < p.width → p.at' x (p.height - j - 1) = true := by
  intro x hx
  have h := takeWhile_range_true _ p.height j hj
  rw [List.all_eq_true] at h
  exact h x (List.mem_range.mpr hx)

theorem bottom_row_not_filled (p : Position)
    (h : filled_bottom_rows p < p.height) :
    ∃ x, x < p.width ∧
      p.at' x (p.height - filled_bottom_rows p - 1) = false := by
  have h1 : ((List.range p.width).all
      (fun x => p.at' x (p.height - filled_bottom_rows p - 1))) = false :=
    takeWhile_range_false _ p.height h
  have h2 : ¬ ((List.range p.width).all
      (fun x => p.at' x (p.height - filled_bottom_rows p - 1)) = true) := by
    simp [h1]
  rw [List.all_eq_true] at h2
  push_neg at h2
  obtain ⟨x, hx, hfx⟩ := h2
  exact ⟨x, List.mem_range.mp hx, by simpa using hfx⟩

theorem left_cols_filled (p : Position) {i : Nat} (hi : i < filled_left_cols p) :
    ∀ y, y < p.height → p.at' i y = true := by
  intro y hy
  have h := takeWhile_range_true _ p.width i hi
  rw [List.all_eq_true] at h
  exact h y (List.mem_range.mpr hy)

theorem left_col_not_filled (p : Position) (h : filled_left_cols p < p.width) :
    ∃ y, y < p.height ∧ p.at' (filled_left_cols p) y = false := by
  have h1 : ((List.range p.height).all
      (fun y => p.at' (filled_left_cols p) y)) = false :=
    takeWhile_range_false _ p.width h
  have h2 : ¬ ((List.range p.height).all
      (fun y => p.at' (filled_left_cols p) y) = true) := by simp [h1]
  rw [List.all_eq_true] at h2
  push_neg at h2
  obtain ⟨y, hy, hfy⟩ := h2
  exact ⟨y, List.mem_range.mp hy, by simpa using hfy⟩

theorem right_cols_filled (p : Position) {j : Nat}
    (hj : j < filled_right_cols p) :
    ∀ y, y < p.height → p.at' (p.width - j - 1) y = true := by
  intro y hy
  have h := takeWhile_range_true _ p.width j hj
  rw [List.all_eq_true] at h
  exact h y (List.mem_range.mpr hy)

theorem right_col_not_filled (p : Position)
    (h : filled_right_cols p < p.width) :
    ∃ y, y < p.height ∧
      p.at' (p.width - filled_right_cols p - 1) y = false := by
  have h1 : ((List.range p.height).all
      (fun y => p.at' (p.width - filled_right_cols p - 1) y)) = false :=
    takeWhile_range_false _ p.width h
  have h2 : ¬ ((List.range p.height).all
      (fun y => p.at' (p.width - filled_right_cols p - 1) y) = true) := by
    simp [h1]
  rw [List.all_eq_true] at h2
  push_neg at h2
  obtain ⟨y, hy, hfy⟩ := h2
  exact ⟨y, List.mem_range.mp hy, by simpa using hfy⟩

/-- When some row is not wholly filled, the bottom strip leaves it intact. -/
theorem bottom_top_lt (p : Position) (hT : filled_top_rows p < p.height) :
    filled_bottom_rows p + filled_top_rows p < p.height := by
  by_contra hcon
  push_neg at hcon
  obtain ⟨x, hx, hfx⟩ := top_row_not_filled p hT
  have hj : p.height - 1 - filled_top_rows p < filled_bottom_rows p := by
    have := filled_bottom_rows_le p
    omega
  have h := bottom_rows_filled p hj x hx
  rw [show p.height - (p.height - 1 - filled_top_rows p) - 1 =
    filled_top_rows p by omega] at h
  rw [h] at hfx
  exact Bool.noConfusion hfx

/-- When some column is not wholly filled, the right strip leaves it intact. -/
theorem right_left_lt (p : Position) (hL : filled_left_cols p < p.width) :
    filled_right_cols p + filled_left_cols p < p.width := by
  by_contra hcon
  push_neg at hcon
  obtain ⟨y, hy, hfy⟩ := left_col_not_filled p hL
  have hj : p.width - 1 - filled_left_cols p < filled_right_cols p := by
    have := filled_right_cols_le p
    omega
  have h := right_cols_filled p hj y hy
  rw [show p.width - (p.width - 1 - filled_left_cols p) - 1 =
    filled_left_cols p by omega] at h
  rw [h] at hfy
  exact Bool.noConfusion hfy

/-- Characterisation of `move_top_left` on the non-collapsing path: the
result has the minimized dimensions, its word has no bits beyond the cell
range, and each cell reads the source cell shifted by the stripped strips. -/
theorem move_top_left_spec (p : Position) (hwh : p.width * p.height ≤ 64)
    (hT : filled_top_rows p ≠ p.height) (hL : filled_left_cols p ≠ p.width) :
    (move_top_left p).width = p.width - filled_left_cols p - filled_right_cols p ∧
    (move_top_left p).height = p.height - filled_top_rows p - filled_bottom_rows p ∧
    (move_top_left p).grid <
      2 ^ ((p.width - filled_left_cols p - filled_right_cols p) *
        (p.height - filled_top_rows p - filled_bottom_rows p)) ∧
    ∀ a b, a < p.width - filled_left_cols p - filled_right_cols p →
      b < p.height - filled_top_rows p - filled_bottom_rows p →
      (move_top_left p).at' a b =
        p.at' (a + filled_left_cols p) (b + filled_top_rows p) := by
  have hT' : filled_top_rows p < p.height :=
    Nat.lt_of_le_of_ne (filled_top_rows_le p) hT
  have hL' : filled_left_cols p < p.width :=
    Nat.lt_of_le_of_ne (filled_left_cols_le p) hL
  have hB := bottom_top_lt p hT'
  have hR := right_left_lt p hL'
  have hMW : 1 ≤ p.width - filled_left_cols p - filled_right_cols p := by omega
  have hMH : 1 ≤ p.height - filled_top_rows p - filled_bottom_rows p := by
    omega
  have h64 : (p.width - filled_left_cols p - filled_right_cols p) *
      (p.height - filled_top_rows p - filled_bottom_rows p) ≤ 64 := by
    calc (p.width - filled_left_cols p - filled_right_cols p) *
        (p.height - filled_top_rows p - filled_bottom_rows p)
        ≤ p.width * p.height :=
          Nat.mul_le_mul (by omega) (by omega)
      _ ≤ 64 := hwh
  unfold move_top_left
  rw [if_neg hT, if_neg hL,
    show p.height - filled_bottom_rows p - filled_top_rows p =
      p.height - filled_top_rows p - filled_bottom_rows p by omega,
    show p.width - filled_right_cols p - filled_left_cols p =
      p.width - filled_left_cols p - filled_right_cols p by omega]
  have hP := foldl_preserve_mem
    (fun acc y =>
      (List.range' (filled_left_cols p)
          (p.width - filled_left_cols p - filled_right_cols p)).foldl
        (fun acc2 x =>
          acc2.set (x - filled_left_cols p) (y - filled_top_rows p)
            (p.at' x y)) acc)
    (fun r => r.width = p.width - filled_left_cols p - filled_right_cols p ∧
      r.height = p.height - filled_top_rows p - filled_bottom_rows p ∧
      r.grid < 2 ^ ((p.width - filled_left_cols p - filled_right_cols p) *
        (p.height - filled_top_rows p - filled_bottom_rows p)))
    (List.range' (filled_top_rows p)
      (p.height - filled_top_rows p - filled_bottom_rows p))
    (by
      intro acc y hy hacc
      have hyb := mem_range'_iff.mp hy
      refine foldl_preserve_mem _
        (fun r => r.width = p.width - filled_left_cols p - filled_right_cols p ∧
          r.height = p.height - filled_top_rows p - filled_bottom_rows p ∧
          r.grid < 2 ^ ((p.width - filled_left_cols p - filled_right_cols p) *
            (p.height - filled_top_rows p - filled_bottom_rows p)))
        _ ?_ acc hacc
      intro acc2 x hx hacc2
      have hxb := mem_range'_iff.mp hx
      refine ⟨by simp [hacc2.1], by simp [hacc2.2], ?_⟩
      show setBitRaw acc2.grid _ _ < _
      apply setBitRaw_lt _ _ hacc2.2.2
      rw [hacc2.1]
      exact index_lt (by omega) (by omega))
    (⟨p.width - filled_left_cols p - filled_right_cols p,
      p.height - filled_top_rows p - filled_bottom_rows p, 0⟩ : Position)
    ⟨rfl, rfl, Nat.two_pow_pos _⟩
  refine ⟨hP.1, hP.2.1, hP.2.2, ?_⟩
  intro a b ha hb
  have hchar := rows_foldl_at (fun x y => p.at' x y) (filled_left_cols p)
    (filled_top_rows p)
    (p.width - filled_left_cols p - filled_right_cols p)
    (p.height - filled_top_rows p - filled_bottom_rows p) h64
    (List.range' (filled_top_rows p)
      (p.height - filled_top_rows p - filled_bottom_rows p))
    (⟨p.width - filled_left_cols p - filled_right_cols p,
      p.height - filled_top_rows p - filled_bottom_rows p, 0⟩ : Position)
    rfl rfl
    (fun y hy => by simpa using mem_range'_iff.mp hy)
    a b ha hb
  rw [if_pos (mem_range'_iff.mpr (by omega))] at hchar
  exact hchar

theorem mtl_eq_zero_of_top (p : Position) (hT : filled_top_rows p = p.height) :
    move_top_left p = ⟨0, 0, 0⟩ := by
  unfold move_top_left
  rw [if_pos hT]

theorem mtl_eq_zero_of_left (p : Position) (hT : filled_top_rows p ≠ p.height)
    (hL : filled_left_cols p = p.width) : move_top_left p = ⟨0, 0, 0⟩ := by
  unfold move_top_left
  rw [if_neg hT, if_pos hL]

theorem mtl_zero : move_top_left (⟨0, 0, 0⟩ : Position) = ⟨0, 0, 0⟩ := by
  decide

/-- `move_top_left` is a fixed point on its own output when neither collapse
branch fires: the rebuilt grid has an empty cell on each border row and
column and no stray high bits, so stripping it again changes nothing. -/
theorem mtl_fixed (p : Position) (hwh : p.width * p.height ≤ 64)
    (hT : filled_top_rows p ≠ p.height) (hL : filled_left_cols p ≠ p.width) :
    move_top_left (move_top_left p) = move_top_left p := by
  have hT' : filled_top_rows p < p.height :=
    Nat.lt_of_le_of_ne (filled_top_rows_le p) hT
  have hL' : filled_left_cols p < p.width :=
    Nat.lt_of_le_of_ne (filled_left_cols_le p) hL
  have hB := bottom_top_lt p hT'
  have hR := right_left_lt p hL'
  have h64 : (p.width - filled_left_cols p - filled_right_cols p) *
      (p.height - filled_top_rows p - filled_bottom_rows p) ≤ 64 := by
    calc (p.width - filled_left_cols p - filled_right_cols p) *
        (p.height - filled_top_rows p - filled_bottom_rows p)
        ≤ p.width * p.height := Nat.mul_le_mul (by omega) (by omega)
      _ ≤ 64 := hwh
  obtain ⟨hqw, hqh, hqg, hqat⟩ := move_top_left_spec p hwh hT hL
  set q := move_top_left p with hqdef
  -- Witness cells on each border of `q`.
  obtain ⟨x0, hx0w, hx0⟩ := top_row_not_filled p hT'
  have hx0L : filled_left_cols p ≤ x0 := by
    by_contra hc
    push_neg at hc
    have h := left_cols_filled p hc (filled_top_rows p) hT'
    rw [h] at hx0
    exact Bool.noConfusion hx0
  have hx0R : x0 < p.width - filled_right_cols p := by
    by_contra hc
    push_neg at hc
    have hj : p.width - x0 - 1 < filled_right_cols p := by omega
    have h := right_cols_filled p hj (filled_top_rows p) hT'
    rw [show p.width - (p.width - x0 - 1) - 1 = x0 by omega] at h
    rw [h] at hx0
    exact Bool.noConfusion hx0
  have hq_row0 : q.at' (x0 - filled_left_cols p) 0 = false := by
    rw [hqat (x0 - filled_left_cols p) 0 (by omega) (by omega),
      show x0 - filled_left_cols p + filled_left_cols p = x0 by omega,
      Nat.zero_add]
    exact hx0
  obtain ⟨y0, hy0h, hy0⟩ := left_col_not_filled p hL'
  have hy0T : filled_top_rows p ≤ y0 := by
    by_contra hc
    push_neg at hc
    have h := top_rows_filled p hc (filled_left_cols p) hL'
    rw [h] at hy0
    exact Bool.noConfusion hy0
  have hy0B : y0 < p.height - filled_bottom_rows p := by
    by_contra hc
    push_neg at hc
    have hj : p.height - y0 - 1 < filled_bottom_rows p := by omega
    have h := bottom_rows_filled p hj (filled_left_cols p) hL'
    rw [show p.height - (p.height - y0 - 1) - 1 = y0 by omega] at h
    rw [h] at hy0
    exact Bool.noConfusion hy0
  have hq_col0 : q.at' 0 (y0 - filled_top_rows p) = false := by
    rw [hqat 0 (y0 - filled_top_rows p) (by omega) (by omega), Nat.zero_add,
      show y0 - filled_top_rows p + filled_top_rows p = y0 by omega]
    exact hy0
  have hBh : filled_bottom_rows p < p.height := by omega
  obtain ⟨x1, hx1w, hx1⟩ := bottom_row_not_filled p hBh
  have hx1L : filled_left_cols p ≤ x1 := by
    by_contra hc
    push_neg at hc
    have h := left_cols_filled p hc
      (p.height - filled_bottom_rows p - 1) (by omega)
    rw [h] at hx1
    exact Bool.noConfusion hx1
  have hx1R : x1 < p.width - filled_right_cols p := by
    by_contra hc
    push_neg at hc
    have hj : p.width - x1 - 1 < filled_right_cols p := by omega
    have h := right_cols_filled p hj
      (p.height - filled_bottom_rows p - 1) (by omega)
    rw [show p.width - (p.width - x1 - 1) - 1 = x1 by omega] at h
    rw [h] at hx1
    exact Bool.noConfusion hx1
  have hq_rowlast : q.at' (x1 - filled_left_cols p)
      (p.height - filled_top_rows p - filled_bottom_rows p - 1) = false := by
    rw [hqat (x1 - filled_left_cols p)
        (p.height - filled_top_rows p - filled_bottom_rows p - 1)
        (by omega) (by omega),
      show x1 - filled_left_cols p + filled_left_cols p = x1 by omega,
      show p.height - filled_top_rows p - filled_bottom_rows p - 1 +
        filled_top_rows p = p.height - filled_bottom_rows p - 1 by omega]
    exact hx1
  have hRw : filled_right_cols p < p.width := by omega
  obtain ⟨y1, hy1h, hy1⟩ := right_col_not_filled p hRw
  have hy1T : filled_top_rows p ≤ y1 := by
    by_contra hc
    push_neg at hc
    have h := top_rows_filled p hc
      (p.width - filled_right_cols p - 1) (by omega)
    rw [h] at hy1
    exact Bool.noConfusion hy1
  have hy1B : y1 < p.height - filled_bottom_rows p := by
    by_contra hc
    push_neg at hc
    have hj : p.height - y1 - 1 < filled_bottom_rows p := by omega
    have h := bottom_rows_filled p hj
      (p.width - filled_right_cols p - 1) (by omega)
    rw [show p.height - (p.height - y1 - 1) - 1 = y1 by omega] at h
    rw [h] at hy1
    exact Bool.noConfusion hy1
  have hq_collast : q.at'
      (p.width - filled_left_cols p - filled_right_cols p - 1)
      (y1 - filled_top_rows p) = false := by
    rw [hqat (p.width - filled_left_cols p - filled_right_cols p - 1)
        (y1 - filled_top_rows p) (by omega) (by omega),
      show p.width - filled_left_cols p - filled_right_cols p - 1 +
        filled_left_cols p = p.width - filled_right_cols p - 1 by omega,
      show y1 - filled_top_rows p + filled_top_rows p = y1 by omega]
    exact hy1
  -- The four strip counts of `q` are zero.
  have hqT0 : filled_top_rows q = 0 := by
    by_contra hc
    have hpos : 0 < filled_top_rows q := Nat.pos_of_ne_zero hc
    have htrue : ((List.range q.width).all (fun x => q.at' x 0)) = true :=
      takeWhile_range_true _ q.height 0 hpos
    rw [List.all_eq_true] at htrue
    have h := htrue (x0 - filled_left_cols p)
      (List.mem_range.mpr (by rw [hqw]; omega))
    simp only [hq_row0] at h
    exact Bool.noConfusion h
  have hqL0 : filled_left_cols q = 0 := by
    by_contra hc
    have hpos : 0 < filled_left_cols q := Nat.pos_of_ne_zero hc
    have htrue : ((List.range q.height).all (fun y => q.at' 0 y)) = true :=
      takeWhile_range_true _ q.width 0 hpos
    rw [List.all_eq_true] at htrue
    have h := htrue (y0 - filled_top_rows p)
      (List.mem_range.mpr (by rw [hqh]; omega))
    simp only [hq_col0] at h
    exact Bool.noConfusion h
  have hqB0 : filled_bottom_rows q = 0 := by
    by_contra hc
    have hpos : 0 < filled_bottom_rows q := Nat.pos_of_ne_zero hc
    have htrue : ((List.range q.width).all
        (fun x => q.at' x (q.height - 0 - 1))) = true :=
      takeWhile_range_true _ q.height 0 hpos
    rw [List.all_eq_true] at htrue
    have h := htrue (x1 - filled_left_cols p)
      (List.mem_range.mpr (by rw [hqw]; omega))
    rw [hqh] at h
    simp only [Nat.sub_zero] at h
    simp only [hq_rowlast] at h
    exact Bool.noConfusion h
  have hqR0 : filled_right_cols q = 0 := by
    by_contra hc
    have hpos : 0 < filled_right_cols q := Nat.pos_of_ne_zero hc
    have htrue : ((List.range q.height).all
        (fun y => q.at' (q.width - 0 - 1) y)) = true :=
      takeWhile_range_true _ q.width 0 hpos
    rw [List.all_eq_true] at htrue
    have h := htrue (y1 - filled_top_rows p)
      (List.mem_range.mpr (by rw [hqh]; omega))
    rw [hqw] at h
    simp only [Nat.sub_zero] at h
    simp only [hq_collast] at h
    exact Bool.noConfusion h
  -- The second application rebuilds `q` identically.
  have hql : q.width * q.height ≤ 64 := by rw [hqw, hqh]; exact h64
  have hqT' : filled_top_rows q ≠ q.height := by rw [hqT0, hqh]; omega
  have hqL' : filled_left_cols q ≠ q.width := by rw [hqL0, hqw]; omega
  obtain ⟨hq2w, hq2h, hq2g, hq2at⟩ := move_top_left_spec q hql hqT' hqL'
  rw [hqL0, hqR0] at hq2w
  rw [hqT0, hqB0] at hq2h
  rw [hqT0, hqB0, hqL0, hqR0] at hq2g hq2at
  simp only [Nat.sub_zero] at hq2w hq2h hq2g hq2at
  simp only [Nat.add_zero] at hq2at
  apply position_ext hq2w hq2h
  apply Nat.eq_of_testBit_eq
  intro i
  by_cases hi : i < q.width * q.height
  · have hw0 : 0 < q.width := by rw [hqw]; omega
    have ha : i % q.width < q.width := Nat.mod_lt _ hw0
    have hb : i / q.width < q.height := by
      rw [Nat.div_lt_iff_lt_mul hw0]
      calc i < q.width * q.height := hi
        _ = q.height * q.width := Nat.mul_comm _ _
    have hat := hq2at (i % q.width) (i / q.width) ha hb
    unfold at' at hat
    rw [getBitRaw_eq_testBit, getBitRaw_eq_testBit, hq2w,
      Nat.div_add_mod i q.width] at hat
    exact hat
  · push_neg at hi
    have hle : 2 ^ (q.width * q.height) ≤ 2 ^ i :=
      Nat.pow_le_pow_right (by omega) hi
    have g1 : (move_top_left q).grid < 2 ^ i := Nat.lt_of_lt_of_le hq2g hle
    have g2 : q.grid < 2 ^ i := by
      refine Nat.lt_of_lt_of_le ?_ hle
      rw [hqw, hqh]
      exact hqg
    rw [Nat.testBit_lt_two_pow g1, Nat.testBit_lt_two_pow g2]

/-- C1: `move_top_left` is idempotent on every representable Domineering
position (`w·h ≤ 64`, the invariant enforced by `check_dimensions`):
`move_top_left(move_top_left(g)) = move_top_left(g)`.  Moreover a position
whose rows (equivalently, for a non-empty grid, whose columns) are all filled
collapses to the zero-size `0×0` grid. -/
theorem move_top_left_idempotent (w h grid : Nat) (hwh : w * h ≤ 64) :
    move_top_left (move_top_left ⟨w, h, grid⟩) = move_top_left ⟨w, h, grid⟩ ∧
    ((∀ y, y < h → ∀ x, x < w → Position.at' ⟨w, h, grid⟩ x y = true) →
      move_top_left ⟨w, h, grid⟩ = ⟨0, 0, 0⟩) := by
  constructor
  · by_cases hT : filled_top_rows ⟨w, h, grid⟩ =
        (⟨w, h, grid⟩ : Position).height
    · rw [mtl_eq_zero_of_top _ hT]
      exact mtl_zero
    · by_cases hL : filled_left_cols ⟨w, h, grid⟩ =
          (⟨w, h, grid⟩ : Position).width
      · rw [mtl_eq_zero_of_left _ hT hL]
        exact mtl_zero
      · exact mtl_fixed ⟨w, h, grid⟩ hwh hT hL
  · intro hfill
    apply mtl_eq_zero_of_top
    have hall : ∀ y, y < h →
        ((List.range w).all (fun x => Position.at' ⟨w, h, grid⟩ x y)) = true := by
      intro y hy
      rw [List.all_eq_true]
      intro x hx
      exact hfill y hy x (List.mem_range.mp hx)
    exact takeWhile_range_all _ h hall

/-- C1 witness: idempotence evaluated on the `2×2` grid with one filled cell,
and the collapse on the fully-filled `1×1` grid. -/
theorem move_top_left_idempotent_witness :
    move_top_left (move_top_left ⟨2, 2, 1⟩) = move_top_left ⟨2, 2, 1⟩ ∧
    move_top_left ⟨1, 1, 1⟩ = ⟨0, 0, 0⟩ :=
  ⟨(move_top_left_idempotent 2 2 1 (by decide)).1,
   (move_top_left_idempotent 1 1 1 (by decide)).2 (by decide)⟩

end Position

theorem takeWhile_append_all {α} (f : α → Bool) :
    ∀ (l1 l2 : List α), (∀ c ∈ l1, f c = true) →
      (l1 ++ l2).takeWhile f = l1 ++ l2.takeWhile f := by
  intro l1
  induction l1 with
  | nil => intro l2 _; simp
  | cons a t ih =>
    intro l2 hall
    rw [List.cons_append,
      List.takeWhile_cons_of_pos (hall a (List.mem_cons_self _ _)),
      ih l2 (fun c hc => hall c (List.mem_cons_of_mem _ hc)), List.cons_append]

namespace Position

theorem at_eq_testBit (q : Position) (a b : Nat) :
    q.at' a b = q.grid.testBit (q.width * b + a) := by
  rw [Position.at', getBitRaw_eq_testBit]

theorem displayRowChars_ne_pipe (p : Position) (y : Nat) :
    ∀ c ∈ displayRowChars p y, ¬ c = '|' := by
  intro c hc
  rw [displayRowChars, List.mem_map] at hc
  obtain ⟨x, _, rfl⟩ := hc
  by_cases h : p.at' x y <;> simp [h]

theorem displayChars_eq_displayFrom (p : Position) :
    displayChars p = displayFrom p 0 := by
  rw [displayChars, displayFrom, List.range_eq_range']
  rfl

theorem displayFrom_step (p : Position) (y : Nat) (hy : y < p.height) :
    displayFrom p y = displayRowChars p y ++
      (if y = p.height - 1 then [] else '|' :: displayFrom p (y + 1)) := by
  rw [displayFrom,
    show p.height - y = (p.height - y - 1) + 1 by omega,
    List.range'_succ, List.map_cons, List.flatten_cons]
  by_cases hylast : y = p.height - 1
  · rw [if_pos hylast, if_neg (fun hcon => hcon hylast),
      show p.height - y - 1 = 0 by omega]
    simp [displayFrom]
  · rw [if_neg hylast, if_pos hylast]
    have : displayFrom p (y + 1) =
        ((List.range' (y + 1) (p.height - y - 1)).map
          (fun z => displayRowChars p z ++
            if z ≠ p.height - 1 then ['|'] else [])).flatten := by
      rw [displayFrom, show p.height - (y + 1) = p.height - y - 1 by omega]
    rw [this]
    simp [List.append_assoc]

theorem displayRow_filter_pipe (p : Position) (y : Nat) :
    (displayRowChars p y).filter (fun c => c = '|') = [] := by
  rw [List.filter_eq_nil_iff]
  intro c hc
  have h := displayRowChars_ne_pipe p y c hc
  simpa using h

theorem displayFrom_pipe_count (p : Position) :
    ∀ n y, p.height - y = n + 1 →
      ((displayFrom p y).filter (fun c => c = '|')).length = n := by
  intro n
  induction n with
  | zero =>
    intro y h1
    rw [displayFrom_step p y (by omega), if_pos (by omega),
      List.filter_append, displayRow_filter_pipe]
    simp
  | succ m ih =>
    intro y h1
    rw [displayFrom_step p y (by omega), if_neg (by omega),
      List.filter_append, displayRow_filter_pipe]
    simp only [List.nil_append]
    rw [List.filter_cons]
    simp only [decide_True, if_true]
    rw [List.length_cons, ih (y + 1) (by omega)]

theorem display_width_extraction (p : Position) (hh : 1 ≤ p.height) :
    ((displayChars p).takeWhile (fun c => c ≠ '|')).length = p.width := by
  have hrow : ∀ c ∈ displayRowChars p 0, (fun c => decide (c ≠ '|')) c = true := by
    intro c hc
    simpa using displayRowChars_ne_pipe p 0 c hc
  rw [displayChars_eq_displayFrom, displayFrom_step p 0 (by omega)]
  by_cases h1 : (0 : Nat) = p.height - 1
  · rw [if_pos h1, takeWhile_append_all _ _ _ hrow]
    simp [displayRowChars]
  · rw [if_neg h1, takeWhile_append_all _ _ _ hrow,
      List.takeWhile_cons_of_neg (by simp)]
    simp [displayRowChars]

theorem parseGo_row (p : Position) (y : Nat) :
    ∀ (k x0 : Nat) (g : Position) (rest : List Char), x0 + k = p.width →
      parseGo p.width
        (((List.range' x0 k).map
          (fun x => if p.at' x y then '#' else '.')) ++ rest) x0 y g =
      parseGo p.width rest p.width y
        ((List.range' x0 k).foldl (fun acc x => acc.set x y (p.at' x y)) g) := by
  intro k
  induction k with
  | zero =>
    intro x0 g rest h
    rw [show x0 = p.width from by omega]
    rfl
  | succ m ih =>
    intro x0 g rest h
    rw [List.range'_succ, List.map_cons, List.cons_append, List.foldl_cons]
    cases hxy : p.at' x0 y
    · rw [show (if false = true then '#' else '.') = '.' from rfl]
      rw [show parseGo p.width
          ('.' :: ((List.range' (x0 + 1) m).map
            (fun x => if p.at' x y then '#' else '.') ++ rest)) x0 y g =
          parseGo p.width
            ((List.range' (x0 + 1) m).map
              (fun x => if p.at' x y then '#' else '.') ++ rest)
            (x0 + 1) y (g.set x0 y false) from by
        simp [parseGo]]
      exact ih (x0 + 1) (g.set x0 y false) rest (by omega)
    · rw [show (if true = true then '#' else '.') = '#' from rfl]
      rw [show parseGo p.width
          ('#' :: ((List.range' (x0 + 1) m).map
            (fun x => if p.at' x y then '#' else '.') ++ rest)) x0 y g =
          parseGo p.width
            ((List.range' (x0 + 1) m).map
              (fun x => if p.at' x y then '#' else '.') ++ rest)
            (x0 + 1) y (g.set x0 y true) from by
        simp [parseGo]]
      exact ih (x0 + 1) (g.set x0 y true) rest (by omega)

theorem parseGo_rows (p : Position) :
    ∀ (n y : Nat), p.height - y = n + 1 → ∀ g : Position,
      parseGo p.width (displayFrom p y) 0 y g =
        some ((List.range' y (n + 1)).foldl
          (fun acc z => (List.range' 0 p.width).foldl
            (fun acc2 x => acc2.set x z (p.at' x z)) acc) g) := by
  intro n
  induction n with
  | zero =>
    intro y h1 g
    rw [displayFrom_step p y (by omega), if_pos (by omega), displayRowChars,
      List.range_eq_range',
      parseGo_row p y p.width 0 g [] (by omega)]
    rfl
  | succ m ih =>
    intro y h1 g
    rw [displayFrom_step p y (by omega), if_neg (by omega), displayRowChars,
      List.range_eq_range',
      parseGo_row p y p.width 0 g ('|' :: displayFrom p (y + 1)) (by omega)]
    rw [show parseGo p.width ('|' :: displayFrom p (y + 1)) p.width y
        ((List.range' 0 p.width).foldl
          (fun acc x => acc.set x y (p.at' x y)) g) =
        parseGo p.width (displayFrom p (y + 1)) 0 (y + 1)
          ((List.range' 0 p.width).foldl
            (fun acc x => acc.set x y (p.at' x y)) g) from by
      simp [parseGo]]
    rw [ih (y + 1) (by omega),
      show List.range' y (m + 1 + 1) = y :: List.range' (y + 1) (m + 1) from
        List.range'_succ _ _ _,
      List.foldl_cons]

/-- C8 counterexample: the round trip fails as universally stated.  The `0×0`
grid (a value `move_top_left` itself produces) displays as `""`, which parses
back as the `0×1` grid; and a `1×1` grid id with a junk bit at position
`1 ≥ w·h` (which `from_number` stores unmasked) displays as the masked grid
and is not recovered. -/
theorem parse_display_not_universal :
    parse (displayStr ⟨0, 0, 0⟩) ≠ some ⟨0, 0, 0⟩ ∧
    parse (displayStr ⟨0, 0, 0⟩) = some ⟨0, 1, 0⟩ ∧
    parse (displayStr ⟨1, 1, 2⟩) ≠ some ⟨1, 1, 2⟩ ∧
    parse (displayStr ⟨1, 1, 2⟩) = some ⟨1, 1, 0⟩ := by
  refine ⟨by decide, by decide, by decide, by decide⟩

/-- C8 (amended): `parse(display(G)) = G` holds for every representable
position (`u8` dimensions, `w·h ≤ 64`) that has at least one row and no set
bits outside its `w·h` cells — in particular for everything produced by
`parse`, `empty`, in-bounds `set`s, or `move_top_left`.  It fails only for
height-0 grids (whose display `""` re-parses as a `0×1` grid) and for ids
with junk bits beyond the cell range. -/
theorem parse_display_roundtrip (w h grid : Nat) (hh : 1 ≤ h) (hh255 : h ≤ 255)
    (hwh : w * h ≤ 64) (hgrid : grid < 2 ^ (w * h)) :
    parse (displayStr ⟨w, h, grid⟩) = some ⟨w, h, grid⟩ := by
  have hw64 : w ≤ 64 := by
    calc w = w * 1 := (Nat.mul_one w).symm
      _ ≤ w * h := Nat.mul_le_mul_left w hh
      _ ≤ 64 := hwh
  have hW : ((displayChars ⟨w, h, grid⟩).takeWhile
      (fun c => c ≠ '|')).length % 256 = w := by
    rw [display_width_extraction ⟨w, h, grid⟩ hh]
    show w % 256 = w
    omega
  have hH : (((displayChars ⟨w, h, grid⟩).filter
      (fun c => c = '|')).length % 256 + 1) % 256 = h := by
    rw [displayChars_eq_displayFrom,
      displayFrom_pipe_count ⟨w, h, grid⟩ (h - 1) 0
        (by show h - 0 = h - 1 + 1; omega)]
    omega
  show parseChars (displayChars ⟨w, h, grid⟩) = some ⟨w, h, grid⟩
  unfold parseChars
  rw [hW, hH,
    show Position.empty w h = some ⟨w, h, 0⟩ from by
      simp [Position.empty, Position.check_dimensions, Nat.not_lt.mpr hwh]]
  show parseGo w (displayChars ⟨w, h, grid⟩) 0 0 ⟨w, h, 0⟩ = some ⟨w, h, grid⟩
  have hgo := parseGo_rows ⟨w, h, grid⟩ (h - 1) 0
    (by show h - 0 = h - 1 + 1; omega) ⟨w, h, 0⟩
  rw [show h - 1 + 1 = h by omega,
    show (⟨w, h, grid⟩ : Position).width = w from rfl] at hgo
  rw [displayChars_eq_displayFrom, hgo]
  congr 1
  -- The rebuilt fold equals the original position.
  have hdims := foldl_preserve_mem
    (fun acc z => (List.range' 0 w).foldl
      (fun acc2 x => acc2.set x z (Position.at' ⟨w, h, grid⟩ x z)) acc)
    (fun r => r.width = w ∧ r.height = h ∧ r.grid < 2 ^ (w * h))
    (List.range' 0 h)
    (by
      intro acc z hz hacc
      have hzb := mem_range'_iff.mp hz
      refine foldl_preserve_mem _
        (fun r => r.width = w ∧ r.height = h ∧ r.grid < 2 ^ (w * h))
        _ ?_ acc hacc
      intro acc2 x hx hacc2
      have hxb := mem_range'_iff.mp hx
      refine ⟨by simp [hacc2.1], by simp [hacc2.2], ?_⟩
      show setBitRaw acc2.grid _ _ < _
      apply setBitRaw_lt _ _ hacc2.2.2
      rw [hacc2.1]
      exact index_lt (by omega) (by omega))
    (⟨w, h, 0⟩ : Position) ⟨rfl, rfl, Nat.two_pow_pos _⟩
  have hFat : ∀ a b, a < w → b < h →
      ((List.range' 0 h).foldl
        (fun acc z => (List.range' 0 w).foldl
          (fun acc2 x => acc2.set x z (Position.at' ⟨w, h, grid⟩ x z)) acc)
        (⟨w, h, 0⟩ : Position)).at' a b =
      Position.at' ⟨w, h, grid⟩ a b := by
    intro a b ha hb
    have hc := rows_foldl_at
      (fun x z => Position.at' ⟨w, h, grid⟩ x z) 0 0 w h hwh
      (List.range' 0 h) (⟨w, h, 0⟩ : Position) rfl rfl
      (fun y hy => mem_range'_iff.mp hy) a b ha hb
    rw [if_pos (mem_range'_iff.mpr (by omega))] at hc
    exact hc
  apply position_ext hdims.1 hdims.2.1
  apply Nat.eq_of_testBit_eq
  intro i
  by_cases hi : i < w * h
  · have hw0 : 0 < w := by
      rcases Nat.eq_zero_or_pos w with h0 | h0
      · rw [h0] at hi; simp at hi
      · exact h0
    have ha : i % w < w := Nat.mod_lt _ hw0
    have hb : i / w < h := by
      rw [Nat.div_lt_iff_lt_mul hw0]
      calc i < w * h := hi
        _ = h * w := Nat.mul_comm _ _
    have hat := hFat (i % w) (i / w) ha hb
    rw [at_eq_testBit, at_eq_testBit, hdims.1,
      show (⟨w, h, grid⟩ : Position).grid = grid from rfl,
      show (⟨w, h, grid⟩ : Position).width = w from rfl,
      Nat.div_add_mod i w] at hat
    exact hat
  · push_neg at hi
    have hle : 2 ^ (w * h) ≤ 2 ^ i := Nat.pow_le_pow_right (by omega) hi
    rw [Nat.testBit_lt_two_pow (Nat.lt_of_lt_of_le hdims.2.2 hle),
      Nat.testBit_lt_two_pow
        (show (⟨w, h, grid⟩ : Position).grid < 2 ^ i from
          Nat.lt_of_lt_of_le hgrid hle)]

/-- C8 witness: the round trip evaluated on the `3×2` grid `.##|#.#`. -/
theorem parse_display_roundtrip_witness :
    parse (displayStr ⟨3, 2, 0b101110⟩) = some ⟨3, 2, 0b101110⟩ :=
  parse_display_roundtrip 3 2 0b101110 (by decide) (by decide) (by decide)
    (by decide)

end Position

/-- C10 witness: `set_frame` evaluated on the `2×2` empty grids at `(0, 1)`,
checking the written cell and an untouched cell. -/
theorem set_frame_witness :
    ((⟨2, 2, 0⟩ : Position).set 0 1 true).at' 0 1 = true ∧
    ((⟨2, 2, 0⟩ : Position).set 0 1 true).at' 1 0 = (⟨2, 2, 0⟩ : Position).at' 1 0 ∧
    ((⟨2, 2, 0⟩ : SmallBitGrid).set 0 1 true).get 0 1 = true := by
  have h := set_frame ⟨2, 2, 0⟩ ⟨2, 2, 0⟩ 0 1 true
    (by decide) (by decide) (by decide) (by decide) (by decide) (by decide)
  exact ⟨h.1.2.1, h.1.2.2.1 1 0 (by decide) (by decide) (by decide), h.2.2.1⟩

end Cgt
